import Mathlib

/-!
Verification of the color-based particle segmentation engine of
`nano_measurer.py` (repository `Youyu0802/size-distribution`).

The Python source is shallowly embedded: 8-bit channel values become `ℕ`,
float arithmetic becomes exact `ℚ` (or `ℝ` where the source uses
transcendental functions `sin`/`cos`/`arctan2`), numpy boolean grids become
row-major `List Bool` with an explicit width, and `scipy.ndimage.label`
becomes a fuel-based flood fill that assigns component ids in raster order
of first encounter (4-connectivity, scipy's default structuring element).
-/

namespace NanoMeasurer

/-- Python float `%` with a positive modulus (result has the divisor's sign):
`x % y = x - y * floor (x / y)`. -/
def pyMod (x y : ℚ) : ℚ := x - y * (⌊x / y⌋ : ℤ)

/-- Python `int(...)` on a float: truncation toward zero. -/
def pyTrunc (q : ℚ) : ℤ := if 0 ≤ q then ⌊q⌋ else -⌊-q⌋

/-- Normalized channel `c / 255.0` from `rgb_f = rgb.astype(float32) / 255.0`
in `_rgb_to_hsv_array`. -/
def chan (c : ℕ) : ℚ := (c : ℚ) / 255

/-- `cmax = np.maximum(np.maximum(r, g), b)` of `_rgb_to_hsv_array`. -/
def cmaxQ (r g b : ℕ) : ℚ := max (max (chan r) (chan g)) (chan b)

/-- `cmin = np.minimum(np.minimum(r, g), b)` of `_rgb_to_hsv_array`. -/
def cminQ (r g b : ℕ) : ℚ := min (min (chan r) (chan g)) (chan b)

/-- `delta = cmax - cmin` of `_rgb_to_hsv_array`. -/
def deltaQ (r g b : ℕ) : ℚ := cmaxQ r g b - cminQ r g b

/-- Hue channel of `_rgb_to_hsv_array` (lines 594-602).  The numpy code
writes the `cmax == r` sector first, then overwrites with the `cmax == g`
sector, then with `cmax == b` (last write wins on ties), and all three
writes are guarded by `delta > 0`; afterwards `h = h / 2.0` maps 0-360 to
0-180, so each `60.0 * s / 2` is written `30 * s`. -/
def hueQ (r g b : ℕ) : ℚ :=
  if deltaQ r g b = 0 then 0
  else if cmaxQ r g b = chan b then 30 * ((chan r - chan g) / deltaQ r g b + 4)
  else if cmaxQ r g b = chan g then 30 * ((chan b - chan r) / deltaQ r g b + 2)
  else 30 * pyMod ((chan g - chan b) / deltaQ r g b) 6

/-- Saturation channel of `_rgb_to_hsv_array` (lines 604-606):
`np.where(cmax > 0, delta / cmax, 0.0) * 255.0`. -/
def satQ (r g b : ℕ) : ℚ :=
  (if 0 < cmaxQ r g b then deltaQ r g b / cmaxQ r g b else 0) * 255

/-- Value channel of `_rgb_to_hsv_array` (line 609): `v = cmax * 255.0`. -/
def valQ (r g b : ℕ) : ℚ := cmaxQ r g b * 255

/-- One pixel of `_rgb_to_hsv_array`: `(H, S, V)` with H in 0-180 and
S, V in 0-255. -/
def rgbToHsv (r g b : ℕ) : ℚ × ℚ × ℚ := (hueQ r g b, satQ r g b, valQ r g b)

/-- Circular hue distance of `_compute_mask` (lines 911-912):
`h_diff = np.abs(h - center); h_diff = np.minimum(h_diff, 180 - h_diff)`. -/
def circHueDist (h c : ℚ) : ℚ := min |h - c| (180 - |h - c|)

/-- Per-pixel similarity test of `_compute_mask` (lines 911-918):
`(h_diff <= h_tol) & (|s - center_s| <= s_tol) & (|v - center_v| <= v_tol)`. -/
def pixelMatch (h s v centerH centerS centerV hTol sTol vTol : ℚ) : Bool :=
  (decide (circHueDist h centerH ≤ hTol)) &&
  (decide (|s - centerS| ≤ sTol)) &&
  (decide (|v - centerV| ≤ vTol))

/-- Claim-side hue: the standard 60-degree-sector formulas, halved, 0 when
the chroma is zero; sector selected by whichever channel equals `Cmax`
(blue over green over red on ties, as the numpy write order dictates). -/
def hueSector (r g b : ℕ) : ℚ :=
  if deltaQ r g b = 0 then 0
  else if cmaxQ r g b = chan b then 60 * ((chan r - chan g) / deltaQ r g b + 4) / 2
  else if cmaxQ r g b = chan g then 60 * ((chan b - chan r) / deltaQ r g b + 2) / 2
  else 60 * pyMod ((chan g - chan b) / deltaQ r g b) 6 / 2

/-! Connected-component extraction (`_compute_mask`, lines 924-976).

A boolean mask is a row-major `List Bool` with an explicit row width `w`;
pixel `p` sits at column `p % w`, row `p / w`.  `scipy.ndimage.label` with
the default structuring element (4-connectivity) is embedded as a raster
scan that starts a fuel-bounded flood fill at each yet-unlabeled foreground
pixel, so component ids are `1, 2, ...` in raster order of first encounter,
exactly the observable numbering of `scipy.ndimage.label`. -/

/-- 4-connected neighbours of pixel `p` in a grid of row width `w`
(out-of-range candidates are harmless: the flood fill reads them as
background). -/
def neighbors (w p : ℕ) : List ℕ :=
  (if p % w = 0 then [] else [p - 1]) ++
  (if (p + 1) % w = 0 then [] else [p + 1]) ++
  (if p < w then [] else [p - w]) ++
  [p + w]

/-- Fuel-bounded flood fill: pop a pixel from the frontier; if it is
foreground and unlabeled, give it label `lbl` and push its neighbours. -/
def flood (w : ℕ) (mask : List Bool) (lbl : ℕ) :
    ℕ → List ℕ → List ℕ → List ℕ
  | 0, lab, _ => lab
  | _ + 1, lab, [] => lab
  | fuel + 1, lab, p :: rest =>
    if mask.getD p false = true ∧ lab.getD p 0 = 0 then
      flood w mask lbl fuel (lab.set p lbl) (neighbors w p ++ rest)
    else
      flood w mask lbl fuel lab rest

/-- Fuel that strictly dominates the total number of frontier pushes: each
labeling consumes one of the at most `length` unlabeled pixels and pushes
at most 4 neighbours, plus the at most 4 seed neighbours. -/
def labelFuel (mask : List Bool) : ℕ := 5 * mask.length + 5

/-- One step of the raster scan of the labeler: at pixel `p`, if foreground
and unlabeled, seed a new component with the next id and flood from it. -/
def scanStep (w : ℕ) (mask : List Bool) (st : List ℕ × ℕ) (p : ℕ) :
    List ℕ × ℕ :=
  if mask.getD p false = true ∧ st.1.getD p 0 = 0 then
    (flood w mask (st.2 + 1) (labelFuel mask)
      (st.1.set p (st.2 + 1)) (neighbors w p), st.2 + 1)
  else st

/-- `labeled, num_features = ndimage_label(mask)` (line 924): the final
label grid together with the number of components. -/
def labelScan (w : ℕ) (mask : List Bool) : List ℕ × ℕ :=
  (List.range mask.length).foldl (scanStep w mask) (List.replicate mask.length 0, 0)

/-- `component_ids = np.arange(1, num_features + 1)` (line 931). -/
def rawIds (w : ℕ) (mask : List Bool) : List ℕ :=
  (List.range (labelScan w mask).2).map (· + 1)

/-- The parallel arrays `component_ids` / `areas` (lines 931-932) as a list
of `(id, area)` pairs; `np.bincount(labeled)[1:]` counts, per component id,
the number of its pixels. -/
def idAreas (w : ℕ) (mask : List Bool) : List (ℕ × ℕ) :=
  (rawIds w mask).map (fun i => (i, (labelScan w mask).1.count i))

/-- `kept_ids` / `kept_areas` (lines 934-945): below-minimum components are
dropped when `min_a > 0`; with `min_a = 0` the code takes the `else` branch
and keeps everything. -/
def keptPairs (w : ℕ) (mask : List Bool) (minA : ℕ) : List (ℕ × ℕ) :=
  if 0 < minA then (idAreas w mask).filter (fun x => decide (minA ≤ x.2))
  else idAreas w mask

/-- The destructive update `mask[remove_mask] = False` (lines 935-940): when
`min_a > 0`, pixels of components with area `< min_a` are cleared in the
match mask itself. -/
def filteredMask (w : ℕ) (mask : List Bool) (minA : ℕ) : List Bool :=
  if 0 < minA then
    (List.range mask.length).map (fun p =>
      if ((rawIds w mask).filter
            (fun i => decide ((labelScan w mask).1.count i < minA))).contains
          ((labelScan w mask).1.getD p 0)
      then false else mask.getD p false)
  else mask

/-- `order = np.argsort(kept_areas)[::-1]` applied to both parallel arrays
(lines 950-953), modeled as an ascending insertion sort by area followed by
reversal.  numpy's default `argsort` only guarantees the keys end up
ascending — its quicksort is not stable, so the relative order of
equal-area components is not specified by the program for larger inputs;
this executable model fixes one possible tie order, and the ranking
theorems consume it only through properties shared by every `argsort`
outcome: being a permutation of the kept pairs and having areas sorted. -/
def rankedPairs (w : ℕ) (mask : List Bool) (minA : ℕ) : List (ℕ × ℕ) :=
  (List.insertionSort (fun a b : ℕ × ℕ => a.2 ≤ b.2) (keptPairs w mask minA)).reverse

/-- The remap table of lines 956-958, old component id to new rank: the
`new_id`-th surviving id (1-based) maps to `new_id`, all others to 0. -/
def remapId (rankedIds : List ℕ) (old : ℕ) : ℕ :=
  if old ∈ rankedIds then rankedIds.indexOf old + 1 else 0

/-- Centroid of the region with remapped label `i` (lines 961-974):
`(sum x / count, sum y / count)` in full-image pixel coordinates, `(0,0)`
for an empty count. -/
def centroidOf (w : ℕ) (labR : List ℕ) (i : ℕ) : ℚ × ℚ :=
  let pts := (List.range labR.length).filter (fun p => decide (labR.getD p 0 = i))
  if 0 < pts.length then
    (((pts.map (fun p => ((p % w : ℕ) : ℚ))).sum) / pts.length,
     ((pts.map (fun p => ((p / w : ℕ) : ℚ))).sum) / pts.length)
  else (0, 0)

/-- Return value of `_compute_mask`: the (possibly mutated) mask, the
rank-remapped label grid, the ranked area list and the centroid list. -/
structure ExtractResult where
  mask : List Bool
  labeled : List ℕ
  areas : List ℕ
  centroids : List (ℚ × ℚ)

/-- `_compute_mask` from the labeling step onward (lines 924-976), taking
the already-computed boolean match mask as input.  Mirrors the two early
returns (`num_features == 0`, `len(kept_areas) == 0`) and the ranked path. -/
def computeMask (w : ℕ) (mask : List Bool) (minA : ℕ) : ExtractResult :=
  if (labelScan w mask).2 = 0 then
    ⟨mask, List.replicate mask.length 0, [], []⟩
  else if keptPairs w mask minA = [] then
    ⟨filteredMask w mask minA, List.replicate mask.length 0, [], []⟩
  else
    ⟨filteredMask w mask minA,
     (labelScan w mask).1.map (remapId ((rankedPairs w mask minA).map Prod.fst)),
     (rankedPairs w mask minA).map Prod.snd,
     (List.range (rankedPairs w mask minA).length).map (fun k =>
       centroidOf w
         ((labelScan w mask).1.map (remapId ((rankedPairs w mask minA).map Prod.fst)))
         (k + 1))⟩

/-- `n_particles = len(self.particle_areas)` (line 982). -/
def particleCount (res : ExtractResult) : ℕ := res.areas.length

/-- `total_px = int(np.sum(areas)) if n_particles > 0 else 0` (line 1013). -/
def totalPx (res : ExtractResult) : ℕ :=
  if 0 < res.areas.length then res.areas.sum else 0

/-- `coverage = total_px / total_pixels * 100.0 if total_pixels > 0 else 0.0`
(line 1015). -/
def coverage (totalPixels : ℕ) (res : ExtractResult) : ℚ :=
  if 0 < totalPixels then (totalPx res : ℚ) / totalPixels * 100 else 0

/-- Concrete test mask: a 10-wide, 7-tall grid whose first five rows form
one 50-pixel component, row 5 is empty, and row 6 starts with a separate
5-pixel component. -/
def grid50 : List Bool :=
  List.replicate 50 true ++ List.replicate 10 false ++
  (List.replicate 5 true ++ List.replicate 5 false)

/-! Manual cut strokes (`_draw_line_on_mask`, `_apply_split_stroke`,
`_undo_split`, `_clear_splits`, lines 1234-1296).  Stroke coordinates and
the brush radius are embedded as exact rationals. -/

/-- Capsule test of `_draw_line_on_mask` (lines 1270-1280): squared distance
from cell `(x, y)` to the segment `(x0,y0)-(x1,y1)` with the projection
parameter clipped to `[0, 1]`, degenerate segments (`seg_len_sq < 1e-6`)
treated as points. -/
def segHit (x0 y0 x1 y1 radius x y : ℚ) : Bool :=
  if (x1 - x0) * (x1 - x0) + (y1 - y0) * (y1 - y0) < 1 / 1000000 then
    decide ((x - x0) ^ 2 + (y - y0) ^ 2 ≤ radius ^ 2)
  else
    decide
      ((x - (x0 + max 0 (min (((x - x0) * (x1 - x0) + (y - y0) * (y1 - y0)) /
          ((x1 - x0) * (x1 - x0) + (y1 - y0) * (y1 - y0))) 1) * (x1 - x0))) ^ 2 +
       (y - (y0 + max 0 (min (((x - x0) * (x1 - x0) + (y - y0) * (y1 - y0)) /
          ((x1 - x0) * (x1 - x0) + (y1 - y0) * (y1 - y0))) 1) * (y1 - y0))) ^ 2 ≤
       radius ^ 2)

/-- `_draw_line_on_mask` (lines 1260-1280): OR a capsule of half-width
`radius` around the segment into the boolean grid, restricted to the
segment's bounding box clamped to the image (`int()` truncates toward
zero). -/
def drawLineOnMask (w h : ℕ) (mask : List Bool) (x0 y0 x1 y1 radius : ℚ) :
    List Bool :=
  if max 0 (pyTrunc (min x0 x1 - radius) - 1) ≥
       min (w : ℤ) (pyTrunc (max x0 x1 + radius) + 2) ∨
     max 0 (pyTrunc (min y0 y1 - radius) - 1) ≥
       min (h : ℤ) (pyTrunc (max y0 y1 + radius) + 2) then mask
  else
    (List.range mask.length).map (fun p =>
      if max 0 (pyTrunc (min x0 x1 - radius) - 1) ≤ ((p % w : ℕ) : ℤ) ∧
         ((p % w : ℕ) : ℤ) < min (w : ℤ) (pyTrunc (max x0 x1 + radius) + 2) ∧
         max 0 (pyTrunc (min y0 y1 - radius) - 1) ≤ ((p / w : ℕ) : ℤ) ∧
         ((p / w : ℕ) : ℤ) < min (h : ℤ) (pyTrunc (max y0 y1 + radius) + 2) ∧
         segHit x0 y0 x1 y1 radius ((p % w : ℕ) : ℚ) ((p / w : ℕ) : ℚ) = true
      then true else mask.getD p false)

/-- The stroke rasterization of `_apply_split_stroke` (lines 1251-1254):
start from an all-false grid and draw every consecutive point pair. -/
def rasterizeStroke (w h : ℕ) (pts : List (ℚ × ℚ)) (radius : ℚ) : List Bool :=
  (pts.zip pts.tail).foldl
    (fun m pr => drawLineOnMask w h m pr.1.1 pr.1.2 pr.2.1 pr.2.2 radius)
    (List.replicate (w * h) false)

/-- The cut-stroke state: the ordered stroke list `_cut_strokes`, the
accumulated `_cut_mask`, and a counter of `_update_preview` recompute
requests issued by the three operations. -/
structure SplitState where
  strokes : List (List Bool)
  cutMask : List Bool
  recomputes : ℕ

/-- Pointwise `|=` of two boolean grids. -/
def orMasks (a b : List Bool) : List Bool := a.zipWith or b

/-- Initial state (lines 703-704): no strokes, all-false cut mask. -/
def initSplit (n : ℕ) : SplitState := ⟨[], List.replicate n false, 0⟩

/-- `_apply_split_stroke` tail (lines 1251-1258): rasterize with radius
`max 1 (brush/2)`, append to the stroke list, OR into the cut mask, and
request a preview recompute. -/
def applySplitStroke (w h : ℕ) (st : SplitState) (pts : List (ℚ × ℚ))
    (brush : ℚ) : SplitState :=
  ⟨st.strokes ++ [rasterizeStroke w h pts (max 1 (brush / 2))],
   orMasks st.cutMask (rasterizeStroke w h pts (max 1 (brush / 2))),
   st.recomputes + 1⟩

/-- `_undo_split` (lines 1282-1289): no-op on an empty stroke list;
otherwise pop the last stroke and rebuild the cut mask from zeros as the
union of the remaining strokes, then request a recompute. -/
def undoSplit (n : ℕ) (st : SplitState) : SplitState :=
  if st.strokes = [] then st
  else
    ⟨st.strokes.dropLast,
     st.strokes.dropLast.foldl orMasks (List.replicate n false),
     st.recomputes + 1⟩

/-- `_clear_splits` (lines 1291-1296): no-op on an empty stroke list;
otherwise empty the stroke list and zero the mask, then recompute. -/
def clearSplits (n : ℕ) (st : SplitState) : SplitState :=
  if st.strokes = [] then st
  else ⟨[], List.replicate n false, st.recomputes + 1⟩

/-- An operator action on the cut layer. -/
inductive SplitOp where
  | paint (pts : List (ℚ × ℚ)) (brush : ℚ)
  | undo
  | clear

/-- Apply one operator action. -/
def applySplitOp (w h : ℕ) (st : SplitState) : SplitOp → SplitState
  | SplitOp.paint pts brush => applySplitStroke w h st pts brush
  | SplitOp.undo => undoSplit (w * h) st
  | SplitOp.clear => clearSplits (w * h) st

/-- Run a sequence of operator actions from the initial state. -/
def runSplitOps (w h : ℕ) (ops : List SplitOp) : SplitState :=
  ops.foldl (applySplitOp w h) (initSplit (w * h))

/-! Preview zoom and pan (`_pv_zoom_at`, lines 1309-1318, and the canvas
placement of `_render_preview` / `_apply_split_stroke`). -/

/-- Pan/zoom state of the preview: `_pv_zoom`, `_pv_ox`, `_pv_oy`. -/
structure ViewState where
  zoom : ℚ
  ox : ℚ
  oy : ℚ

/-- The clamped new zoom `max(0.5, min(zoom * factor, 20.0))` (line 1314). -/
def pvNewZoom (zoom factor : ℚ) : ℚ := max (1 / 2) (min (zoom * factor) 20)

/-- `_pv_zoom_at` (lines 1309-1318): clamp the new zoom and move the offset
by `(1 - r) * (cursor - center) + r * offset` with `r = newZoom / oldZoom`. -/
def pvZoomAt (vs : ViewState) (cx cy cw ch factor : ℚ) : ViewState :=
  ⟨pvNewZoom vs.zoom factor,
   (1 - pvNewZoom vs.zoom factor / vs.zoom) * (cx - cw / 2) +
     pvNewZoom vs.zoom factor / vs.zoom * vs.ox,
   (1 - pvNewZoom vs.zoom factor / vs.zoom) * (cy - ch / 2) +
     pvNewZoom vs.zoom factor / vs.zoom * vs.oy⟩

/-- Canvas position of thumbnail point `(tx, ty)` under a view state
(`_render_preview` lines 1354-1360 / `_apply_split_stroke` lines 1236-1248):
base fit scale times user zoom, image centered plus pan offset. -/
def canvasPos (cw ch tw th : ℚ) (vs : ViewState) (tx ty : ℚ) : ℚ × ℚ :=
  ((cw - tw * (min (cw / tw) (ch / th) * vs.zoom)) / 2 + vs.ox +
     tx * (min (cw / tw) (ch / th) * vs.zoom),
   (ch - th * (min (cw / tw) (ch / th) * vs.zoom)) / 2 + vs.oy +
     ty * (min (cw / tw) (ch / th) * vs.zoom))

/-! Multi-sample color aggregation (`__init__` lines 656-679 and
`_recalculate_hsv_center` lines 1146-1174).  The hue circular mean uses
numpy's `sin`/`cos`/`arctan2`, embedded over `ℝ`; these definitions are
necessarily noncomputable and concrete instances are settled symbolically. -/

noncomputable section

/-- `np.arctan2(y, x)`: the angle of `(x, y)` in `(-π, π]`, embedded as the
complex argument of `x + y i`. -/
def arctan2 (y x : ℝ) : ℝ := Complex.arg (x + y * Complex.I)

/-- Python float `%` with a positive modulus on reals (`% 180.0`). -/
def rmod (x y : ℝ) : ℝ := x - y * (⌊x / y⌋ : ℤ)

/-- `np.mean` of a list of reals. -/
def listMean (l : List ℝ) : ℝ := l.sum / l.length

/-- Hue circular mean of `_recalculate_hsv_center` (lines 1147-1150):
samples scaled by `π/90` to radians on the doubled-hue circle, `arctan2` of
the mean sine and mean cosine scaled back by `90/π`, and Python `% 180.0`. -/
def hueCenter (hs : List ℝ) : ℝ :=
  rmod
    (arctan2 (listMean (hs.map (fun a => Real.sin (a * (Real.pi / 90)))))
       (listMean (hs.map (fun a => Real.cos (a * (Real.pi / 90))))) *
     (90 / Real.pi)) 180

/-- `np.max` of a nonempty list (call sites are guarded by `n_pts > 1`; the
empty case defaults to 0). -/
def listMax : List ℝ → ℝ
  | [] => 0
  | x :: xs => xs.foldl max x

/-- Python `int(...)` on a real: truncation toward zero. -/
def pyTruncR (x : ℝ) : ℤ := if 0 ≤ x then ⌊x⌋ else -⌊-x⌋

/-- Hue auto-tolerance (lines 1167-1169): circular deviation of every
sample from the center, maximum, `* 1.5 + 5`, clamped into `[5, 90]`, then
`int(...)`. -/
def autoHueTol (hs : List ℝ) : ℤ :=
  pyTruncR (min 90 (max 5 (listMax (hs.map (fun a =>
    min |a - hueCenter hs| (180 - |a - hueCenter hs|))) * 1.5 + 5)))

/-- Saturation/value auto-tolerance (lines 1170-1171): absolute deviation
from the arithmetic-mean center, maximum, `* 1.5 + 10`, clamped into
`[10, 128]`, then `int(...)`. -/
def autoSVTol (vals : List ℝ) : ℤ :=
  pyTruncR (min 128 (max 10 (listMax (vals.map (fun s =>
    |s - listMean vals|)) * 1.5 + 10)))

/-- The initial/auto tolerance triple (lines 671-679): auto formulas with
more than one sample, fixed defaults `(15, 50, 50)` otherwise. -/
def autoTolerances (hs ss vs : List ℝ) : ℤ × ℤ × ℤ :=
  if 1 < hs.length then (autoHueTol hs, autoSVTol ss, autoSVTol vs)
  else (15, 50, 50)

end

lemma getD_set (l : List ℕ) (i j a : ℕ) :
    (l.set i a).getD j 0 = if i = j ∧ i < l.length then a else l.getD j 0 := by
  simp only [List.getD_eq_getElem?_getD, List.getElem?_set]
  by_cases h1 : i = j
  · subst h1
    by_cases h2 : i < l.length
    · simp [h2]
    · simp only [if_pos rfl, if_neg h2, h2, and_false, if_false]
      rw [List.getElem?_eq_none (not_lt.mp h2)]
      simp
  · simp [h1]

lemma getD_set_self (l : List ℕ) {i : ℕ} (a : ℕ) (h : i < l.length) :
    (l.set i a).getD i 0 = a := by
  rw [getD_set, if_pos ⟨rfl, h⟩]

lemma getD_replicate (n q : ℕ) : (List.replicate n (0 : ℕ)).getD q 0 = 0 := by
  simp only [List.getD_eq_getElem?_getD, List.getElem?_replicate]
  by_cases h : q < n <;> simp [h]

lemma mem_of_getD {l : List ℕ} {q v : ℕ} (h : l.getD q 0 = v) (hv : v ≠ 0) :
    v ∈ l := by
  by_cases hq : q < l.length
  · rw [List.getD_eq_getElem?_getD, List.getElem?_eq_getElem hq] at h
    simp only [Option.getD_some] at h
    exact h ▸ List.getElem_mem hq
  · rw [List.getD_eq_getElem?_getD, List.getElem?_eq_none (not_lt.mp hq)] at h
    simp at h
    exact absurd h.symm hv

lemma flood_length (w : ℕ) (mask : List Bool) (lbl : ℕ) :
    ∀ (fuel : ℕ) (front : List ℕ) (lab : List ℕ),
      (flood w mask lbl fuel lab front).length = lab.length := by
  intro fuel
  induction fuel with
  | zero => intro front lab; rfl
  | succ n ih =>
    intro front lab
    cases front with
    | nil => rfl
    | cons p rest =>
      by_cases hc : mask.getD p false = true ∧ lab.getD p 0 = 0
      · rw [flood, if_pos hc, ih, List.length_set]
      · rw [flood, if_neg hc, ih]

lemma flood_getD_ne_zero (w : ℕ) (mask : List Bool) (lbl : ℕ) :
    ∀ (fuel : ℕ) (front : List ℕ) (lab : List ℕ) (q : ℕ),
      lab.getD q 0 ≠ 0 →
      (flood w mask lbl fuel lab front).getD q 0 = lab.getD q 0 := by
  intro fuel
  induction fuel with
  | zero => intro front lab q _; rfl
  | succ n ih =>
    intro front lab q hq
    cases front with
    | nil => rfl
    | cons p rest =>
      by_cases hc : mask.getD p false = true ∧ lab.getD p 0 = 0
      · rw [flood, if_pos hc]
        have hpq : p ≠ q := by
          intro he; rw [he] at hc; exact hq hc.2
        have hset : (lab.set p lbl).getD q 0 = lab.getD q 0 := by
          rw [getD_set, if_neg (fun hand => hpq hand.1)]
        rw [ih _ _ q (by rw [hset]; exact hq), hset]
      · rw [flood, if_neg hc]
        exact ih _ _ q hq

lemma flood_getD_mem (w : ℕ) (mask : List Bool) (lbl : ℕ) :
    ∀ (fuel : ℕ) (front : List ℕ) (lab : List ℕ) (q : ℕ),
      (flood w mask lbl fuel lab front).getD q 0 = lab.getD q 0 ∨
      (flood w mask lbl fuel lab front).getD q 0 = lbl := by
  intro fuel
  induction fuel with
  | zero => intro front lab q; exact Or.inl rfl
  | succ n ih =>
    intro front lab q
    cases front with
    | nil => exact Or.inl rfl
    | cons p rest =>
      by_cases hc : mask.getD p false = true ∧ lab.getD p 0 = 0
      · rw [flood, if_pos hc]
        rcases ih (neighbors w p ++ rest) (lab.set p lbl) q with h | h
        · rw [h, getD_set]
          by_cases hif : p = q ∧ p < lab.length
          · rw [if_pos hif]; exact Or.inr rfl
          · rw [if_neg hif]; exact Or.inl rfl
        · exact Or.inr h
      · rw [flood, if_neg hc]
        exact ih rest lab q

lemma scanStep_inv (w : ℕ) (mask : List Bool) (st : List ℕ × ℕ) (p : ℕ)
    (hp : p < mask.length)
    (hlen : st.1.length = mask.length)
    (hocc : ∀ l, 1 ≤ l → l ≤ st.2 → ∃ q, st.1.getD q 0 = l)
    (hle : ∀ q, st.1.getD q 0 ≤ st.2) :
    (scanStep w mask st p).1.length = mask.length ∧
    (∀ l, 1 ≤ l → l ≤ (scanStep w mask st p).2 →
      ∃ q, (scanStep w mask st p).1.getD q 0 = l) ∧
    (∀ q, (scanStep w mask st p).1.getD q 0 ≤ (scanStep w mask st p).2) := by
  unfold scanStep
  by_cases hc : mask.getD p false = true ∧ st.1.getD p 0 = 0
  · rw [if_pos hc]
    have hplen : p < st.1.length := hlen ▸ hp
    have hseed : (st.1.set p (st.2 + 1)).getD p 0 = st.2 + 1 :=
      getD_set_self _ _ hplen
    refine ⟨?_, ?_, ?_⟩
    · rw [flood_length, List.length_set]; exact hlen
    · intro l h1 h2
      simp only at h2
      by_cases hl : l = st.2 + 1
      · subst hl
        refine ⟨p, ?_⟩
        rw [flood_getD_ne_zero _ _ _ _ _ _ p (by rw [hseed]; omega), hseed]
      · obtain ⟨q, hq⟩ := hocc l h1 (by omega)
        have hqp : q ≠ p := by
          intro he; rw [he, hc.2] at hq; omega
        have hset : (st.1.set p (st.2 + 1)).getD q 0 = l := by
          rw [getD_set, if_neg (fun hand => hqp hand.1.symm)]; exact hq
        refine ⟨q, ?_⟩
        rw [flood_getD_ne_zero _ _ _ _ _ _ q (by rw [hset]; omega), hset]
    · intro q
      rcases flood_getD_mem w mask (st.2 + 1) (labelFuel mask)
          (neighbors w p) (st.1.set p (st.2 + 1)) q with h | h
      · rw [h, getD_set]
        by_cases hif : p = q ∧ p < st.1.length
        · rw [if_pos hif]
        · rw [if_neg hif]
          exact le_trans (hle q) (by omega)
      · rw [h]
  · rw [if_neg hc]
    exact ⟨hlen, hocc, hle⟩

lemma scan_fold_inv (w : ℕ) (mask : List Bool) :
    ∀ (ps : List ℕ) (st : List ℕ × ℕ),
      (∀ p ∈ ps, p < mask.length) →
      st.1.length = mask.length →
      (∀ l, 1 ≤ l → l ≤ st.2 → ∃ q, st.1.getD q 0 = l) →
      (∀ q, st.1.getD q 0 ≤ st.2) →
      ((ps.foldl (scanStep w mask) st).1.length = mask.length ∧
       (∀ l, 1 ≤ l → l ≤ (ps.foldl (scanStep w mask) st).2 →
         ∃ q, (ps.foldl (scanStep w mask) st).1.getD q 0 = l) ∧
       (∀ q, (ps.foldl (scanStep w mask) st).1.getD q 0 ≤
         (ps.foldl (scanStep w mask) st).2)) := by
  intro ps
  induction ps with
  | nil => intro st _ h1 h2 h3; exact ⟨h1, h2, h3⟩
  | cons p rest ih =>
    intro st hmem h1 h2 h3
    obtain ⟨g1, g2, g3⟩ :=
      scanStep_inv w mask st p (hmem p (List.mem_cons_self p rest)) h1 h2 h3
    exact ih (scanStep w mask st p)
      (fun q hq => hmem q (List.mem_cons_of_mem _ hq)) g1 g2 g3

lemma labelScan_inv (w : ℕ) (mask : List Bool) :
    (labelScan w mask).1.length = mask.length ∧
    (∀ l, 1 ≤ l → l ≤ (labelScan w mask).2 →
      ∃ q, (labelScan w mask).1.getD q 0 = l) ∧
    (∀ q, (labelScan w mask).1.getD q 0 ≤ (labelScan w mask).2) := by
  unfold labelScan
  exact scan_fold_inv w mask (List.range mask.length)
    (List.replicate mask.length 0, 0)
    (fun p hp => List.mem_range.mp hp)
    (List.length_replicate _ _)
    (fun l h1 h2 => absurd (le_trans h1 h2) (by norm_num))
    (fun q => le_of_eq (getD_replicate _ _))

lemma keptPairs_num_zero (w : ℕ) (mask : List Bool) (minA : ℕ)
    (h : (labelScan w mask).2 = 0) : keptPairs w mask minA = [] := by
  unfold keptPairs idAreas rawIds
  rw [h]
  simp

lemma rankedPairs_nil (w : ℕ) (mask : List Bool) (minA : ℕ)
    (h : keptPairs w mask minA = []) : rankedPairs w mask minA = [] := by
  unfold rankedPairs
  rw [h]
  rfl

lemma mem_rawIds (w : ℕ) (mask : List Bool) (i : ℕ) :
    i ∈ rawIds w mask ↔ 1 ≤ i ∧ i ≤ (labelScan w mask).2 := by
  unfold rawIds
  simp only [List.mem_map, List.mem_range]
  constructor
  · rintro ⟨j, hj, rfl⟩; omega
  · rintro ⟨h1, h2⟩; exact ⟨i - 1, by omega, by omega⟩

lemma mem_idAreas (w : ℕ) (mask : List Bool) {x : ℕ × ℕ}
    (h : x ∈ idAreas w mask) :
    x.1 ∈ rawIds w mask ∧ x.2 = (labelScan w mask).1.count x.1 := by
  unfold idAreas at h
  obtain ⟨i, hi, he⟩ := List.mem_map.mp h
  rw [← he]
  exact ⟨hi, rfl⟩

lemma mem_keptPairs (w : ℕ) (mask : List Bool) (minA : ℕ) {x : ℕ × ℕ}
    (h : x ∈ keptPairs w mask minA) :
    x.1 ∈ rawIds w mask ∧ x.2 = (labelScan w mask).1.count x.1 ∧
    (0 < minA → minA ≤ x.2) := by
  unfold keptPairs at h
  by_cases hm : 0 < minA
  · rw [if_pos hm] at h
    obtain ⟨hmem, hp⟩ := List.mem_filter.mp h
    obtain ⟨h1, h2⟩ := mem_idAreas w mask hmem
    exact ⟨h1, h2, fun _ => by simpa using hp⟩
  · rw [if_neg hm] at h
    obtain ⟨h1, h2⟩ := mem_idAreas w mask h
    exact ⟨h1, h2, fun hc => absurd hc hm⟩

lemma mem_rankedPairs (w : ℕ) (mask : List Bool) (minA : ℕ) {x : ℕ × ℕ} :
    x ∈ rankedPairs w mask minA ↔ x ∈ keptPairs w mask minA := by
  unfold rankedPairs
  rw [List.mem_reverse]
  exact (List.perm_insertionSort _ _).mem_iff

lemma idAreas_pairwise (w : ℕ) (mask : List Bool) :
    List.Pairwise (fun a b : ℕ × ℕ => a.1 < b.1) (idAreas w mask) := by
  unfold idAreas rawIds
  rw [List.pairwise_map, List.pairwise_map]
  exact (List.pairwise_lt_range _).imp (fun h => by simpa using h)

lemma keptPairs_pairwise (w : ℕ) (mask : List Bool) (minA : ℕ) :
    List.Pairwise (fun a b : ℕ × ℕ => a.1 < b.1) (keptPairs w mask minA) := by
  unfold keptPairs
  by_cases hm : 0 < minA
  · rw [if_pos hm]
    exact (idAreas_pairwise w mask).filter _
  · rw [if_neg hm]
    exact idAreas_pairwise w mask

lemma orderedInsert_lex (x : ℕ × ℕ) :
    ∀ (m : List (ℕ × ℕ)),
      List.Pairwise (fun a b : ℕ × ℕ => a.2 < b.2 ∨ (a.2 = b.2 ∧ a.1 < b.1)) m →
      (∀ b ∈ m, x.1 < b.1) →
      List.Pairwise (fun a b : ℕ × ℕ => a.2 < b.2 ∨ (a.2 = b.2 ∧ a.1 < b.1))
        (List.orderedInsert (fun a b : ℕ × ℕ => a.2 ≤ b.2) x m)
  | [], _, _ => List.pairwise_singleton _ _
  | b :: m, hs, hx => by
    rw [List.orderedInsert]
    obtain ⟨hbm, hm⟩ := List.pairwise_cons.mp hs
    by_cases hle : x.2 ≤ b.2
    · rw [if_pos hle]
      refine List.pairwise_cons.mpr ⟨?_, hs⟩
      intro c hc
      rcases List.mem_cons.mp hc with rfl | hcm
      · rcases lt_or_eq_of_le hle with h | h
        · exact Or.inl h
        · exact Or.inr ⟨h, hx c (List.mem_cons_self _ _)⟩
      · have hb2c2 : b.2 ≤ c.2 := by
          rcases hbm c hcm with h | h
          · exact le_of_lt h
          · exact le_of_eq h.1
        rcases lt_or_eq_of_le (le_trans hle hb2c2) with h | h
        · exact Or.inl h
        · exact Or.inr ⟨h, hx c (List.mem_cons_of_mem _ hcm)⟩
    · rw [if_neg hle]
      refine List.pairwise_cons.mpr ⟨?_, ?_⟩
      · intro c hc
        rcases (List.mem_orderedInsert _).mp hc with rfl | hcm
        · exact Or.inl (lt_of_not_le hle)
        · exact hbm c hcm
      · exact orderedInsert_lex x m hm (fun c hc => hx c (List.mem_cons_of_mem _ hc))

lemma insertionSort_lex :
    ∀ (l : List (ℕ × ℕ)),
      List.Pairwise (fun a b : ℕ × ℕ => a.1 < b.1) l →
      List.Pairwise (fun a b : ℕ × ℕ => a.2 < b.2 ∨ (a.2 = b.2 ∧ a.1 < b.1))
        (List.insertionSort (fun a b : ℕ × ℕ => a.2 ≤ b.2) l)
  | [], _ => List.Pairwise.nil
  | x :: l, h => by
    rw [List.insertionSort]
    obtain ⟨hxl, hl⟩ := List.pairwise_cons.mp h
    exact orderedInsert_lex x _ (insertionSort_lex l hl)
      (fun c hc => hxl c ((List.perm_insertionSort _ l).subset hc))

lemma rankedPairs_lex (w : ℕ) (mask : List Bool) (minA : ℕ) :
    List.Pairwise (fun a b : ℕ × ℕ => b.2 < a.2 ∨ (b.2 = a.2 ∧ b.1 < a.1))
      (rankedPairs w mask minA) := by
  unfold rankedPairs
  rw [List.pairwise_reverse]
  exact insertionSort_lex _ (keptPairs_pairwise w mask minA)

lemma rankedPairs_perm (w : ℕ) (mask : List Bool) (minA : ℕ) :
    (rankedPairs w mask minA).Perm (keptPairs w mask minA) := by
  unfold rankedPairs
  exact (List.reverse_perm _).trans (List.perm_insertionSort _ _)

lemma keptIds_nodup_of_perm (w : ℕ) (mask : List Bool) (minA : ℕ)
    (rp : List (ℕ × ℕ)) (hperm : rp.Perm (keptPairs w mask minA)) :
    (rp.map Prod.fst).Nodup := by
  refine ((hperm.map Prod.fst).symm).nodup ?_
  exact List.pairwise_map.mpr
    ((keptPairs_pairwise w mask minA).imp fun h => Nat.ne_of_lt h)

lemma remapId_le (ids : List ℕ) (old : ℕ) : remapId ids old ≤ ids.length := by
  unfold remapId
  split_ifs with h
  · have := List.indexOf_lt_length.mpr h
    omega
  · exact Nat.zero_le _

lemma remapId_getElem (ids : List ℕ) (hnd : ids.Nodup) (k : ℕ)
    (hk : k < ids.length) : remapId ids (ids.get ⟨k, hk⟩) = k + 1 := by
  unfold remapId
  rw [List.get_eq_getElem]
  rw [if_pos (List.getElem_mem hk), List.indexOf_getElem hnd k hk]

lemma computeMask_main (w : ℕ) (mask : List Bool) (minA : ℕ)
    (h : keptPairs w mask minA ≠ []) :
    computeMask w mask minA =
      ⟨filteredMask w mask minA,
       (labelScan w mask).1.map (remapId ((rankedPairs w mask minA).map Prod.fst)),
       (rankedPairs w mask minA).map Prod.snd,
       (List.range (rankedPairs w mask minA).length).map (fun k =>
         centroidOf w
           ((labelScan w mask).1.map
             (remapId ((rankedPairs w mask minA).map Prod.fst)))
           (k + 1))⟩ := by
  have hnum : ¬(labelScan w mask).2 = 0 :=
    fun h0 => h (keptPairs_num_zero w mask minA h0)
  unfold computeMask
  rw [if_neg hnum, if_neg h]

lemma computeMask_areas (w : ℕ) (mask : List Bool) (minA : ℕ) :
    (computeMask w mask minA).areas = (rankedPairs w mask minA).map Prod.snd := by
  by_cases h : keptPairs w mask minA = []
  · rw [rankedPairs_nil w mask minA h]
    unfold computeMask
    by_cases hnum : (labelScan w mask).2 = 0
    · rw [if_pos hnum]; rfl
    · rw [if_neg hnum, if_pos h]; rfl
  · rw [computeMask_main w mask minA h]

lemma pyMod_eq_fract (x : ℚ) : pyMod x 6 = 6 * Int.fract (x / 6) := by
  unfold pyMod
  rw [Int.fract]
  field_simp

lemma pyMod_nonneg (x : ℚ) : 0 ≤ pyMod x 6 := by
  rw [pyMod_eq_fract]
  have := Int.fract_nonneg (x / 6)
  linarith

lemma pyMod_lt (x : ℚ) : pyMod x 6 < 6 := by
  rw [pyMod_eq_fract]
  have := Int.fract_lt_one (x / 6)
  linarith

lemma cmin_le_cmax (r g b : ℕ) : cminQ r g b ≤ cmaxQ r g b := by
  unfold cminQ cmaxQ
  exact le_trans (le_trans (min_le_left _ _) (min_le_left _ _))
    (le_trans (le_max_left _ _) (le_max_left _ _))

lemma delta_nonneg (r g b : ℕ) : 0 ≤ deltaQ r g b := by
  have := cmin_le_cmax r g b
  unfold deltaQ; linarith

lemma hue_bounds (r g b : ℕ) : 0 ≤ hueQ r g b ∧ hueQ r g b < 180 := by
  have hdel : deltaQ r g b = cmaxQ r g b - cminQ r g b := rfl
  have hrle : chan r ≤ cmaxQ r g b := le_trans (le_max_left _ _) (le_max_left _ _)
  have hgle : chan g ≤ cmaxQ r g b := le_trans (le_max_right _ _) (le_max_left _ _)
  have hble : chan b ≤ cmaxQ r g b := le_max_right _ _
  have hrge : cminQ r g b ≤ chan r := le_trans (min_le_left _ _) (min_le_left _ _)
  have hgge : cminQ r g b ≤ chan g := le_trans (min_le_left _ _) (min_le_right _ _)
  have hbge : cminQ r g b ≤ chan b := min_le_right _ _
  unfold hueQ
  by_cases hd : deltaQ r g b = 0
  · rw [if_pos hd]; norm_num
  · rw [if_neg hd]
    have hdpos : 0 < deltaQ r g b := lt_of_le_of_ne (delta_nonneg r g b) (Ne.symm hd)
    by_cases hb : cmaxQ r g b = chan b
    · rw [if_pos hb]
      have h3 : (chan r - chan g) / deltaQ r g b ≤ 1 :=
        (div_le_one hdpos).mpr (by linarith)
      have h4 : -1 ≤ (chan r - chan g) / deltaQ r g b := by
        rw [neg_le, ← neg_div]
        exact (div_le_one hdpos).mpr (by linarith)
      constructor <;> nlinarith
    · rw [if_neg hb]
      by_cases hg : cmaxQ r g b = chan g
      · rw [if_pos hg]
        have h3 : (chan b - chan r) / deltaQ r g b ≤ 1 :=
          (div_le_one hdpos).mpr (by linarith)
        have h4 : -1 ≤ (chan b - chan r) / deltaQ r g b := by
          rw [neg_le, ← neg_div]
          exact (div_le_one hdpos).mpr (by linarith)
        constructor <;> nlinarith
      · rw [if_neg hg]
        have h0 := pyMod_nonneg ((chan g - chan b) / deltaQ r g b)
        have h6 := pyMod_lt ((chan g - chan b) / deltaQ r g b)
        constructor <;> nlinarith

lemma gray_sat_zero (r : ℕ) : satQ r r r = 0 := by
  unfold satQ deltaQ cmaxQ cminQ
  simp

lemma rgbToHsv_black : rgbToHsv 0 0 0 = (0, 0, 0) := by
  have hc : cmaxQ 0 0 0 = 0 := by norm_num [cmaxQ, chan]
  have hm : cminQ 0 0 0 = 0 := by norm_num [cminQ, chan]
  have hd : deltaQ 0 0 0 = 0 := by rw [deltaQ, hc, hm]; ring
  unfold rgbToHsv hueQ satQ valQ
  rw [if_pos hd, hc]
  norm_num

/-- C4: for every 8-bit RGB triple, the embedded `_rgb_to_hsv_array` pixel
conversion returns a hue in `[0, 180)` equal to the halved 60-degree-sector
formula (0 when the chroma is zero), saturation `Δ/Cmax·255` when `Cmax > 0`
and 0 otherwise, and value `Cmax·255`; every gray pixel has saturation 0 and
the all-black pixel maps to `(0, 0, 0)` (the conversion is total, so no
exception can be raised). -/
theorem rgbToHsv_spec (r g b : ℕ) (hr : r ≤ 255) (hg : g ≤ 255) (hb : b ≤ 255) :
    (0 ≤ (rgbToHsv r g b).1 ∧ (rgbToHsv r g b).1 < 180) ∧
    (rgbToHsv r g b).1 = hueSector r g b ∧
    (rgbToHsv r g b).2.1 =
      (if 0 < cmaxQ r g b then deltaQ r g b / cmaxQ r g b else 0) * 255 ∧
    (rgbToHsv r g b).2.2 = cmaxQ r g b * 255 ∧
    (r = g → g = b → (rgbToHsv r g b).2.1 = 0) ∧
    rgbToHsv 0 0 0 = (0, 0, 0) := by
  refine ⟨hue_bounds r g b, ?_, rfl, rfl, ?_, rgbToHsv_black⟩
  · show hueQ r g b = hueSector r g b
    unfold hueQ hueSector
    by_cases hd : deltaQ r g b = 0
    · rw [if_pos hd, if_pos hd]
    · rw [if_neg hd, if_neg hd]
      by_cases hbm : cmaxQ r g b = chan b
      · rw [if_pos hbm, if_pos hbm]; ring
      · rw [if_neg hbm, if_neg hbm]
        by_cases hgm : cmaxQ r g b = chan g
        · rw [if_pos hgm, if_pos hgm]; ring
        · rw [if_neg hgm, if_neg hgm]; ring
  · intro h1 h2
    subst h1; subst h2
    exact gray_sat_zero r

/-- Witness for `rgbToHsv_spec` at the concrete triple `(10, 200, 30)`. -/
theorem rgbToHsv_spec_witness :
    (0 ≤ (rgbToHsv 10 200 30).1 ∧ (rgbToHsv 10 200 30).1 < 180) ∧
    (rgbToHsv 10 200 30).1 = hueSector 10 200 30 ∧
    (rgbToHsv 10 200 30).2.1 =
      (if 0 < cmaxQ 10 200 30 then deltaQ 10 200 30 / cmaxQ 10 200 30 else 0) * 255 ∧
    (rgbToHsv 10 200 30).2.2 = cmaxQ 10 200 30 * 255 ∧
    (10 = 200 → 200 = 30 → (rgbToHsv 10 200 30).2.1 = 0) ∧
    rgbToHsv 0 0 0 = (0, 0, 0) :=
  rgbToHsv_spec 10 200 30 (by decide) (by decide) (by decide)

/-- C2: the embedded similarity predicate of `_compute_mask` marks a pixel
as matching iff the circular hue distance `min (|h-cH|, 180-|h-cH|)` is at
most `hueTol` and the saturation and value absolute differences are within
their tolerances; and the circular hue distance between 5 and 175 is 10,
not 170. -/
theorem pixelMatch_spec :
    (∀ h s v cH cS cV hT sT vT : ℚ,
      pixelMatch h s v cH cS cV hT sT vT = true ↔
        (min |h - cH| (180 - |h - cH|) ≤ hT ∧ |s - cS| ≤ sT ∧ |v - cV| ≤ vT)) ∧
    circHueDist 5 175 = 10 := by
  constructor
  · intro h s v cH cS cV hT sT vT
    unfold pixelMatch circHueDist
    simp [and_assoc]
  · unfold circHueDist
    norm_num [abs_of_nonpos]

lemma computeMask_labeled_empty (w : ℕ) (mask : List Bool) (minA : ℕ)
    (h : keptPairs w mask minA = []) :
    (computeMask w mask minA).labeled = List.replicate mask.length 0 := by
  unfold computeMask
  by_cases hnum : (labelScan w mask).2 = 0
  · rw [if_pos hnum]
  · rw [if_neg hnum, if_pos h]

lemma computeMask_centroids_empty (w : ℕ) (mask : List Bool) (minA : ℕ)
    (h : keptPairs w mask minA = []) :
    (computeMask w mask minA).centroids = [] := by
  unfold computeMask
  by_cases hnum : (labelScan w mask).2 = 0
  · rw [if_pos hnum]
  · rw [if_neg hnum, if_pos h]

lemma computeMask_mask_eq (w : ℕ) (mask : List Bool) (minA : ℕ)
    (hnum : (labelScan w mask).2 ≠ 0) :
    (computeMask w mask minA).mask = filteredMask w mask minA := by
  unfold computeMask
  rw [if_neg hnum]
  by_cases hk : keptPairs w mask minA = []
  · rw [if_pos hk]
  · rw [if_neg hk]

lemma getD_map_range (n : ℕ) (f : ℕ → Bool) (p : ℕ) (hp : p < n) :
    ((List.range n).map f).getD p false = f p := by
  rw [List.getD_eq_getElem?_getD,
    List.getElem?_eq_getElem (by simpa using hp)]
  simp

lemma relabel_contiguous (w : ℕ) (mask : List Bool) (minA : ℕ)
    (rp : List (ℕ × ℕ)) (hperm : rp.Perm (keptPairs w mask minA)) :
    (∀ v ∈ (labelScan w mask).1.map (remapId (rp.map Prod.fst)),
      v ≤ rp.length) ∧
    (∀ i, 1 ≤ i → i ≤ rp.length →
      i ∈ (labelScan w mask).1.map (remapId (rp.map Prod.fst))) := by
  constructor
  · intro v hv
    obtain ⟨x, _, rfl⟩ := List.mem_map.mp hv
    exact le_trans (remapId_le _ _) (le_of_eq (List.length_map _ _))
  · intro i h1 h2
    have hk : i - 1 < (rp.map Prod.fst).length := by
      rw [List.length_map]
      omega
    have hnd := keptIds_nodup_of_perm w mask minA rp hperm
    have hrm := remapId_getElem _ hnd (i - 1) hk
    have holdmem : (rp.map Prod.fst).get ⟨i - 1, hk⟩ ∈ rp.map Prod.fst := by
      rw [List.get_eq_getElem]
      exact List.getElem_mem hk
    obtain ⟨x, hxrp, hxfst⟩ := List.mem_map.mp holdmem
    obtain ⟨hx1, hx2, hx3⟩ := mem_keptPairs w mask minA (hperm.subset hxrp)
    have holdlab : (rp.map Prod.fst).get ⟨i - 1, hk⟩ ∈ (labelScan w mask).1 := by
      rw [← hxfst]
      by_cases hm : 0 < minA
      · have hge := hx3 hm
        exact List.count_pos_iff.mp (by omega)
      · have hraw := (mem_rawIds w mask x.1).mp hx1
        obtain ⟨q, hq⟩ := (labelScan_inv w mask).2.1 x.1 hraw.1 hraw.2
        exact mem_of_getD hq (by omega)
    have hmem := List.mem_map_of_mem (remapId (rp.map Prod.fst)) holdlab
    rw [hrm] at hmem
    have hi : i - 1 + 1 = i := by omega
    rwa [hi] at hmem

/-- C1, amended: for every mask and minimum area, the relabeled output of
`_compute_mask` uses exactly the contiguous labels 1..N plus background 0 —
proved for EVERY possible ranking the program can produce, i.e. for every
permutation of the surviving `(id, area)` pairs (numpy's default unstable
`argsort` guarantees no particular order among equal-area components) — and
the returned area list, here realized by the embedded ranking, is sorted by
area descending (a property invariant under reordering ties, since tied
entries carry equal areas), with rank 1 the largest region: every label map
value is at most N and every rank from 1 to N occurs. -/
theorem ranking_spec (w : ℕ) (mask : List Bool) (minA : ℕ) :
    (∀ rp : List (ℕ × ℕ), rp.Perm (keptPairs w mask minA) →
      List.Pairwise (fun a b : ℕ × ℕ => b.2 ≤ a.2) rp →
      (∀ v ∈ (labelScan w mask).1.map (remapId (rp.map Prod.fst)),
        v ≤ rp.length) ∧
      (∀ i, 1 ≤ i → i ≤ rp.length →
        i ∈ (labelScan w mask).1.map (remapId (rp.map Prod.fst)))) ∧
    (computeMask w mask minA).areas = (rankedPairs w mask minA).map Prod.snd ∧
    List.Pairwise (fun a b : ℕ => b ≤ a) (computeMask w mask minA).areas ∧
    (∀ v ∈ (computeMask w mask minA).labeled,
      v ≤ particleCount (computeMask w mask minA)) ∧
    (∀ i, 1 ≤ i → i ≤ particleCount (computeMask w mask minA) →
      i ∈ (computeMask w mask minA).labeled) := by
  have hsorted : List.Pairwise (fun a b : ℕ × ℕ => b.2 ≤ a.2)
      (rankedPairs w mask minA) := by
    refine (rankedPairs_lex w mask minA).imp ?_
    rintro a b (h | ⟨h1, h2⟩)
    · exact le_of_lt h
    · exact le_of_eq h1
  refine ⟨fun rp hperm _ => relabel_contiguous w mask minA rp hperm,
    computeMask_areas w mask minA, ?_, ?_, ?_⟩
  · rw [computeMask_areas]
    exact List.pairwise_map.mpr hsorted
  · by_cases h : keptPairs w mask minA = []
    · intro v hv
      rw [computeMask_labeled_empty w mask minA h] at hv
      rw [List.eq_of_mem_replicate hv]
      exact Nat.zero_le _
    · intro v hv
      have hlab : (computeMask w mask minA).labeled =
          (labelScan w mask).1.map
            (remapId ((rankedPairs w mask minA).map Prod.fst)) := by
        rw [computeMask_main w mask minA h]
      have hpc : particleCount (computeMask w mask minA) =
          (rankedPairs w mask minA).length := by
        rw [particleCount, computeMask_areas]
        simp
      rw [hlab] at hv
      rw [hpc]
      exact (relabel_contiguous w mask minA _
        (rankedPairs_perm w mask minA)).1 v hv
  · by_cases h : keptPairs w mask minA = []
    · intro i h1 h2
      have hpc : particleCount (computeMask w mask minA) = 0 := by
        rw [particleCount, computeMask_areas, rankedPairs_nil w mask minA h]
        rfl
      omega
    · intro i h1 h2
      have hlab : (computeMask w mask minA).labeled =
          (labelScan w mask).1.map
            (remapId ((rankedPairs w mask minA).map Prod.fst)) := by
        rw [computeMask_main w mask minA h]
      have hpc : particleCount (computeMask w mask minA) =
          (rankedPairs w mask minA).length := by
        rw [particleCount, computeMask_areas]
        simp
      rw [hlab]
      rw [hpc] at h2
      exact (relabel_contiguous w mask minA _
        (rankedPairs_perm w mask minA)).2 i h1 h2

/-- Witness for `ranking_spec`: on the two-component mask
`[true, false, true]` the tie-swapped ranking `[(2,1),(1,1)]` is a
permutation of the kept pairs with areas descending, its relabeling stays
within 1..2, and rank 1 occurs in the label map of the embedded output. -/
theorem ranking_spec_witness :
    (∀ v ∈ (labelScan 3 [true, false, true]).1.map
        (remapId ([((2 : ℕ), (1 : ℕ)), (1, 1)].map Prod.fst)),
      v ≤ [((2 : ℕ), (1 : ℕ)), (1, 1)].length) ∧
    1 ∈ (computeMask 3 [true, false, true] 0).labeled :=
  ⟨((ranking_spec 3 [true, false, true] 0).1 [(2, 1), (1, 1)]
      (by decide) (by decide)).1,
   (ranking_spec 3 [true, false, true] 0).2.2.2.2 1 (le_refl 1) (by decide)⟩

/-- Counterexample to C1 as stated: on the mask `[true, false, true]`
(width 3) the two components both have area 1, yet the ranked list is
`[(2, 1), (1, 1)]` and the label map is `[2, 0, 1]`, so the stable
ascending tie-break the claim asserts fails.  (For a two-element area
array numpy's `argsort` is deterministic — introsort falls back to a
stable insertion sort below 16 elements — so this reversal is the
program's actual behavior on this input.) -/
theorem ranking_tie_counterexample :
    rankedPairs 3 [true, false, true] 0 = [(2, 1), (1, 1)] ∧
    (computeMask 3 [true, false, true] 0).labeled = [2, 0, 1] ∧
    ¬ List.Pairwise (fun a b : ℕ × ℕ => a.2 = b.2 → a.1 < b.1)
        (rankedPairs 3 [true, false, true] 0) := by
  decide

lemma twoComponents_areas (w : ℕ) (mask : List Bool)
    (h2 : (labelScan w mask).2 = 2)
    (hc : ((labelScan w mask).1.count 1 = 5 ∧
             (labelScan w mask).1.count 2 = 50) ∨
          ((labelScan w mask).1.count 1 = 50 ∧
             (labelScan w mask).1.count 2 = 5)) :
    (computeMask w mask 10).areas = [50] := by
  rw [computeMask_areas]
  unfold rankedPairs keptPairs idAreas rawIds
  rw [h2, show List.range 2 = [0, 1] from rfl]
  simp only [List.map_cons, List.map_nil, Nat.zero_add, Nat.reduceAdd]
  rcases hc with ⟨ha, hb⟩ | ⟨ha, hb⟩ <;>
    rw [ha, hb] <;>
    norm_num [List.filter, List.insertionSort, List.orderedInsert]

set_option maxRecDepth 20000 in
/-- C3: for every mask and `minArea > 0`, every labeled component whose
pixel count is below `minArea` has all its pixels cleared in the returned
(mutated) mask and its id excluded from the ranked output; every mask with
exactly two components, of pixel areas 5 and 50, yields with `minArea = 10`
exactly the single surviving area list `[50]` — verified both in general
from the labeling counts and on a concrete 10-wide grid. -/
theorem minArea_filter_spec :
    (∀ (w : ℕ) (mask : List Bool) (minA : ℕ), 0 < minA →
      ∀ p l, (labelScan w mask).1.getD p 0 = l → 1 ≤ l →
        (labelScan w mask).1.count l < minA →
        (computeMask w mask minA).mask.getD p false = false ∧
        l ∉ (rankedPairs w mask minA).map Prod.fst) ∧
    (∀ (w : ℕ) (mask : List Bool), (labelScan w mask).2 = 2 →
      ((labelScan w mask).1.count 1 = 5 ∧
         (labelScan w mask).1.count 2 = 50) ∨
      ((labelScan w mask).1.count 1 = 50 ∧
         (labelScan w mask).1.count 2 = 5) →
      (computeMask w mask 10).areas = [50]) ∧
    (computeMask 10 grid50 10).areas = [50] := by
  refine ⟨?_, twoComponents_areas, ?_⟩
  · intro w mask minA hm p l hp hl hcount
    have hlnum : l ≤ (labelScan w mask).2 := hp ▸ (labelScan_inv w mask).2.2 p
    have hnum : (labelScan w mask).2 ≠ 0 := by omega
    constructor
    · rw [computeMask_mask_eq w mask minA hnum]
      have hplen : p < mask.length := by
        by_contra hnp
        have hlen := (labelScan_inv w mask).1
        have : (labelScan w mask).1.getD p 0 = 0 := by
          rw [List.getD_eq_getElem?_getD, List.getElem?_eq_none (by omega)]
          rfl
        omega
      rw [filteredMask, if_pos hm, getD_map_range _ _ _ hplen, hp]
      rw [if_pos]
      have hraw : l ∈ rawIds w mask := (mem_rawIds w mask l).mpr ⟨hl, hlnum⟩
      have : l ∈ (rawIds w mask).filter
          (fun i => decide ((labelScan w mask).1.count i < minA)) :=
        List.mem_filter.mpr ⟨hraw, by simpa using hcount⟩
      simpa using this
    · intro hmem
      obtain ⟨x, hxrp, hxfst⟩ := List.mem_map.mp hmem
      obtain ⟨_, hx2, hx3⟩ :=
        mem_keptPairs w mask minA ((mem_rankedPairs w mask minA).mp hxrp)
      have hge := hx3 hm
      rw [hxfst] at hx2
      omega
  · decide

/-- Witness for `minArea_filter_spec`: on the mask `[true, false, true]`
with `minArea = 2`, pixel 0 carries label 1 of area 1, and the returned
mask clears it. -/
theorem minArea_filter_spec_witness :
    0 < 2 ∧ (labelScan 3 [true, false, true]).1.getD 0 0 = 1 ∧
    (computeMask 3 [true, false, true] 2).mask.getD 0 false = false :=
  ⟨by decide, by decide,
   (minArea_filter_spec.1 3 [true, false, true] 2 (by decide) 0 1 (by decide)
     (by decide) (by decide)).1⟩

lemma labelScan_replicate_false (w n : ℕ) :
    labelScan w (List.replicate n false) = (List.replicate n 0, 0) := by
  have key : ∀ (ps : List ℕ) (st : List ℕ × ℕ),
      ps.foldl (scanStep w (List.replicate n false)) st = st := by
    intro ps
    induction ps with
    | nil => intro st; rfl
    | cons p rest ih =>
      intro st
      rw [List.foldl_cons]
      have hstep : scanStep w (List.replicate n false) st p = st := by
        unfold scanStep
        rw [if_neg]
        rintro ⟨h1, _⟩
        have hgd : (List.replicate n false).getD p false = false := by
          rw [List.getD_eq_getElem?_getD, List.getElem?_replicate]
          split_ifs <;> rfl
        rw [hgd] at h1
        exact Bool.false_ne_true h1
      rw [hstep]
      exact ih st
  unfold labelScan
  rw [List.length_replicate, key]

/-- C8: whenever no component survives the minimum-area filter, the
embedded `_compute_mask` returns an empty ranked area list, an all-zero
label map and an empty centroid list (a normal result, not an error), and
the derived statistics report zero particle count and zero coverage; in
particular the all-false mask yields exactly that empty result with the
mask returned unchanged. -/
theorem emptyResult_spec :
    (∀ (w : ℕ) (mask : List Bool) (minA : ℕ), keptPairs w mask minA = [] →
      (computeMask w mask minA).areas = [] ∧
      (computeMask w mask minA).labeled = List.replicate mask.length 0 ∧
      (computeMask w mask minA).centroids = [] ∧
      particleCount (computeMask w mask minA) = 0 ∧
      (∀ tp, coverage tp (computeMask w mask minA) = 0)) ∧
    (∀ (w n minA : ℕ), computeMask w (List.replicate n false) minA =
      ⟨List.replicate n false, List.replicate n 0, [], []⟩) := by
  constructor
  · intro w mask minA h
    have hareas : (computeMask w mask minA).areas = [] := by
      rw [computeMask_areas, rankedPairs_nil w mask minA h]
      rfl
    refine ⟨hareas, computeMask_labeled_empty w mask minA h,
      computeMask_centroids_empty w mask minA h, ?_, ?_⟩
    · rw [particleCount, hareas]
      rfl
    · intro tp
      rw [coverage, totalPx, hareas]
      split_ifs <;> simp
  · intro w n minA
    have hscan := labelScan_replicate_false w n
    unfold computeMask
    rw [hscan, if_pos rfl, List.length_replicate]

/-- Witness for `emptyResult_spec`: the one-pixel all-false mask survives
nothing and yields the empty area list. -/
theorem emptyResult_spec_witness :
    keptPairs 1 [false] 0 = [] ∧ (computeMask 1 [false] 0).areas = [] :=
  ⟨by decide, (emptyResult_spec.1 1 [false] 0 (by decide)).1⟩

lemma splitOp_inv (w h : ℕ) (st : SplitState)
    (hinv : st.cutMask = st.strokes.foldl orMasks (List.replicate (w * h) false))
    (op : SplitOp) :
    (applySplitOp w h st op).cutMask =
      (applySplitOp w h st op).strokes.foldl orMasks
        (List.replicate (w * h) false) := by
  cases op with
  | paint pts brush =>
    simp only [applySplitOp, applySplitStroke, List.foldl_concat]
    rw [hinv]
  | undo =>
    simp only [applySplitOp, undoSplit]
    split_ifs with he
    · exact hinv
    · rfl
  | clear =>
    simp only [applySplitOp, clearSplits]
    split_ifs with he
    · exact hinv
    · rfl

lemma runSplitOps_inv (w h : ℕ) :
    ∀ (ops : List SplitOp) (st : SplitState),
      st.cutMask = st.strokes.foldl orMasks (List.replicate (w * h) false) →
      (ops.foldl (applySplitOp w h) st).cutMask =
        (ops.foldl (applySplitOp w h) st).strokes.foldl orMasks
          (List.replicate (w * h) false)
  | [], _, hinv => hinv
  | op :: rest, st, hinv => by
    rw [List.foldl_cons]
    exact runSplitOps_inv w h rest (applySplitOp w h st op)
      (splitOp_inv w h st hinv op)

/-- C7: painting stroke A then stroke B and undoing the last stroke leaves
the cut mask identical to painting only A; and after any sequence of
paint/undo/clear operations the cut mask equals the pointwise OR of the
rasterizations of the surviving strokes. -/
theorem strokeUndo_spec (w h : ℕ) :
    (∀ (ptsA ptsB : List (ℚ × ℚ)) (brushA brushB : ℚ),
      (undoSplit (w * h)
        (applySplitStroke w h
          (applySplitStroke w h (initSplit (w * h)) ptsA brushA)
          ptsB brushB)).cutMask =
      (applySplitStroke w h (initSplit (w * h)) ptsA brushA).cutMask) ∧
    (∀ ops : List SplitOp,
      (runSplitOps w h ops).cutMask =
        (runSplitOps w h ops).strokes.foldl orMasks
          (List.replicate (w * h) false)) := by
  constructor
  · intro ptsA ptsB brushA brushB
    simp [undoSplit, applySplitStroke, initSplit]
  · intro ops
    exact runSplitOps_inv w h ops (initSplit (w * h)) rfl

/-- C10: when the stroke list is empty, both `_undo_split` and
`_clear_splits` are complete no-ops: the state, including the cut mask, the
stroke list and the recompute counter, is unchanged, so no mask or preview
recompute is triggered. -/
theorem emptyStroke_noop (n : ℕ) (st : SplitState) (h : st.strokes = []) :
    undoSplit n st = st ∧ clearSplits n st = st := by
  constructor
  · unfold undoSplit
    rw [if_pos h]
  · unfold clearSplits
    rw [if_pos h]

/-- Witness for `emptyStroke_noop` at the fresh 4-pixel state. -/
theorem emptyStroke_noop_witness :
    (initSplit 4).strokes = [] ∧ undoSplit 4 (initSplit 4) = initSplit 4 :=
  ⟨rfl, (emptyStroke_noop 4 (initSplit 4) rfl).1⟩

lemma zoom_at_fixed_coord (cw tw s z r ox tx cx : ℚ)
    (h : (cw - tw * (s * z)) / 2 + ox + tx * (s * z) = cx) :
    (cw - tw * (s * (r * z))) / 2 +
      ((1 - r) * (cx - cw / 2) + r * ox) + tx * (s * (r * z)) = cx := by
  linear_combination r * h

/-- C9: the `_pv_zoom_at` offset update is exactly
`(1 - r) * (cursor - center) + r * old_offset` with `r` the realized zoom
ratio, this keeps the canvas position of any thumbnail point that was under
the cursor unchanged, and zooming by factor 2 from zoom 1 and offset `(0,0)`
at the canvas midpoint leaves the offset at `(0,0)`. -/
theorem zoomAt_spec :
    (∀ (vs : ViewState) (cx cy cw ch factor : ℚ),
      (pvZoomAt vs cx cy cw ch factor).ox =
        (1 - (pvZoomAt vs cx cy cw ch factor).zoom / vs.zoom) * (cx - cw / 2) +
          (pvZoomAt vs cx cy cw ch factor).zoom / vs.zoom * vs.ox ∧
      (pvZoomAt vs cx cy cw ch factor).oy =
        (1 - (pvZoomAt vs cx cy cw ch factor).zoom / vs.zoom) * (cy - ch / 2) +
          (pvZoomAt vs cx cy cw ch factor).zoom / vs.zoom * vs.oy) ∧
    (∀ (vs : ViewState) (cx cy cw ch tw th factor tx ty : ℚ),
      vs.zoom ≠ 0 →
      canvasPos cw ch tw th vs tx ty = (cx, cy) →
      canvasPos cw ch tw th (pvZoomAt vs cx cy cw ch factor) tx ty = (cx, cy)) ∧
    (∀ cw ch : ℚ,
      pvZoomAt ⟨1, 0, 0⟩ (cw / 2) (ch / 2) cw ch 2 = ⟨2, 0, 0⟩) := by
  refine ⟨fun vs cx cy cw ch factor => ⟨rfl, rfl⟩, ?_, ?_⟩
  · intro vs cx cy cw ch tw th factor tx ty hz hpos
    simp only [canvasPos, Prod.mk.injEq] at hpos ⊢
    obtain ⟨hx, hy⟩ := hpos
    have hcan : pvNewZoom vs.zoom factor / vs.zoom * vs.zoom =
        pvNewZoom vs.zoom factor := div_mul_cancel₀ _ hz
    constructor
    · have hfix := zoom_at_fixed_coord cw tw (min (cw / tw) (ch / th)) vs.zoom
        (pvNewZoom vs.zoom factor / vs.zoom) vs.ox tx cx hx
      rw [hcan] at hfix
      exact hfix
    · have hfix := zoom_at_fixed_coord ch th (min (cw / tw) (ch / th)) vs.zoom
        (pvNewZoom vs.zoom factor / vs.zoom) vs.oy ty cy hy
      rw [hcan] at hfix
      exact hfix
  · intro cw ch
    have hz : pvNewZoom 1 2 = 2 := by
      unfold pvNewZoom
      norm_num
    simp only [pvZoomAt, hz]
    norm_num

/-- Witness for `zoomAt_spec`: a 100-square canvas, 10-square thumbnail,
initial view: the thumbnail point `(3, 4)` sits at canvas `(30, 40)` and
stays there after zooming by 2 at that very position. -/
theorem zoomAt_spec_witness :
    ((1 : ℚ) ≠ 0) ∧
    canvasPos 100 100 10 10 ⟨1, 0, 0⟩ 3 4 = (30, 40) ∧
    canvasPos 100 100 10 10 (pvZoomAt ⟨1, 0, 0⟩ 30 40 100 100 2) 3 4 =
      (30, 40) := by
  have h1 : (1 : ℚ) ≠ 0 := one_ne_zero
  have h2 : canvasPos 100 100 10 10 ⟨1, 0, 0⟩ 3 4 = (30, 40) := by
    norm_num [canvasPos]
  exact ⟨h1, h2, zoomAt_spec.2.1 ⟨1, 0, 0⟩ 30 40 100 100 10 10 2 3 4 h1 h2⟩

lemma rmod_bounds (x : ℝ) : 0 ≤ rmod x 180 ∧ rmod x 180 < 180 := by
  have h1 := Int.floor_le (x / 180)
  have h2 := Int.lt_floor_add_one (x / 180)
  unfold rmod
  constructor <;> linarith

lemma arctan2_zero_of_pos {x : ℝ} (hx : 0 < x) : arctan2 0 x = 0 := by
  unfold arctan2
  simp only [Complex.ofReal_zero, zero_mul, add_zero]
  exact Complex.arg_ofReal_of_nonneg hx.le

lemma arctan2_zero_of_neg {x : ℝ} (hx : x < 0) : arctan2 0 x = Real.pi := by
  unfold arctan2
  simp only [Complex.ofReal_zero, zero_mul, add_zero]
  exact Complex.arg_ofReal_of_neg hx

lemma listMean_sin_pair {a b : ℝ}
    (h : Real.sin (b * (Real.pi / 90)) = -Real.sin (a * (Real.pi / 90))) :
    listMean ([a, b].map (fun t => Real.sin (t * (Real.pi / 90)))) = 0 := by
  unfold listMean
  simp only [List.map_cons, List.map_nil, List.sum_cons, List.sum_nil,
    List.length_cons, List.length_nil, h]
  push_cast
  ring

lemma listMean_cos_pair {a b : ℝ}
    (h : Real.cos (b * (Real.pi / 90)) = Real.cos (a * (Real.pi / 90))) :
    listMean ([a, b].map (fun t => Real.cos (t * (Real.pi / 90)))) =
      Real.cos (a * (Real.pi / 90)) := by
  unfold listMean
  simp only [List.map_cons, List.map_nil, List.sum_cons, List.sum_nil,
    List.length_cons, List.length_nil, h]
  push_cast
  ring

lemma hueCenter_pair_eq (a b : ℝ)
    (hs : Real.sin (b * (Real.pi / 90)) = -Real.sin (a * (Real.pi / 90)))
    (hc : Real.cos (b * (Real.pi / 90)) = Real.cos (a * (Real.pi / 90)))
    (hpos : 0 < Real.cos (a * (Real.pi / 90))) :
    hueCenter [a, b] = 0 := by
  unfold hueCenter
  rw [listMean_sin_pair hs, listMean_cos_pair hc, arctan2_zero_of_pos hpos]
  norm_num [rmod]

lemma hueCenter_pair_pi (a b : ℝ)
    (hs : Real.sin (b * (Real.pi / 90)) = -Real.sin (a * (Real.pi / 90)))
    (hc : Real.cos (b * (Real.pi / 90)) = Real.cos (a * (Real.pi / 90)))
    (hneg : Real.cos (a * (Real.pi / 90)) < 0) :
    hueCenter [a, b] = 90 := by
  unfold hueCenter
  rw [listMean_sin_pair hs, listMean_cos_pair hc, arctan2_zero_of_neg hneg]
  have hpi : Real.pi * (90 / Real.pi) = 90 := by
    field_simp
  rw [hpi]
  norm_num [rmod]

lemma hueCenter_10_170 : hueCenter [(10 : ℝ), 170] = 0 := by
  apply hueCenter_pair_eq
  · rw [show (170 : ℝ) * (Real.pi / 90) = 2 * Real.pi - 10 * (Real.pi / 90) by
      ring, Real.sin_sub, Real.sin_two_pi, Real.cos_two_pi]
    ring
  · rw [show (170 : ℝ) * (Real.pi / 90) = 2 * Real.pi - 10 * (Real.pi / 90) by
      ring, Real.cos_sub, Real.sin_two_pi, Real.cos_two_pi]
    ring
  · apply Real.cos_pos_of_mem_Ioo
    constructor
    · nlinarith [Real.pi_pos]
    · nlinarith [Real.pi_pos]

lemma hueCenter_80_100 : hueCenter [(80 : ℝ), 100] = 90 := by
  apply hueCenter_pair_pi
  · rw [show (100 : ℝ) * (Real.pi / 90) = 2 * Real.pi - 80 * (Real.pi / 90) by
      ring, Real.sin_sub, Real.sin_two_pi, Real.cos_two_pi]
    ring
  · rw [show (100 : ℝ) * (Real.pi / 90) = 2 * Real.pi - 80 * (Real.pi / 90) by
      ring, Real.cos_sub, Real.sin_two_pi, Real.cos_two_pi]
    ring
  · apply Real.cos_neg_of_pi_div_two_lt_of_lt
    · nlinarith [Real.pi_pos]
    · nlinarith [Real.pi_pos]

/-- C5: for every nonempty hue sample list, the embedded hue center is the
circular mean `arctan2 (mean sin) (mean cos) * 90/π` normalized into
`[0, 180)` (it differs from the raw circular mean by the `180 k` Python
`%` subtracts and always lies in `[0, 180)`), the saturation/value center
is the arithmetic mean, and the two samples at hue 10 and hue 170 average
to hue 0 (wrapping), not 90. -/
theorem hueCenter_spec :
    (∀ hs : List ℝ, hs ≠ [] →
      (0 ≤ hueCenter hs ∧ hueCenter hs < 180) ∧
      ∃ k : ℤ, hueCenter hs =
        arctan2 (listMean (hs.map (fun a => Real.sin (a * (Real.pi / 90)))))
            (listMean (hs.map (fun a => Real.cos (a * (Real.pi / 90))))) *
          (90 / Real.pi) - 180 * k) ∧
    (∀ ss : List ℝ, listMean ss = ss.sum / ss.length) ∧
    hueCenter [10, 170] = 0 := by
  refine ⟨?_, fun ss => rfl, hueCenter_10_170⟩
  intro hs _
  refine ⟨rmod_bounds _, ?_⟩
  refine ⟨⌊(arctan2 (listMean (hs.map (fun a => Real.sin (a * (Real.pi / 90)))))
      (listMean (hs.map (fun a => Real.cos (a * (Real.pi / 90))))) *
      (90 / Real.pi)) / 180⌋, ?_⟩
  unfold hueCenter rmod
  ring

/-- Witness for `hueCenter_spec` at the sample list `[10, 170]`. -/
theorem hueCenter_spec_witness :
    ([(10 : ℝ), 170] ≠ ([] : List ℝ)) ∧ 0 ≤ hueCenter [(10 : ℝ), 170] :=
  ⟨by simp, ((hueCenter_spec.1 [10, 170] (by simp)).1).1⟩

lemma pyTruncR_bounds (lo hi : ℤ) (x : ℝ) (hlo : (0 : ℝ) ≤ (lo : ℝ))
    (hlh : (lo : ℝ) ≤ (hi : ℝ)) :
    lo ≤ pyTruncR (min (hi : ℝ) (max (lo : ℝ) x)) ∧
    pyTruncR (min (hi : ℝ) (max (lo : ℝ) x)) ≤ hi := by
  have hvlo : (lo : ℝ) ≤ min (hi : ℝ) (max (lo : ℝ) x) :=
    le_min hlh (le_max_left _ _)
  have hv0 : (0 : ℝ) ≤ min (hi : ℝ) (max (lo : ℝ) x) := le_trans hlo hvlo
  unfold pyTruncR
  rw [if_pos hv0]
  constructor
  · exact Int.le_floor.mpr hvlo
  · exact le_trans (Int.floor_le_floor (min_le_left _ _))
      (le_of_eq (Int.floor_intCast hi))

/-- C6: with more than one sample the auto tolerances are clamped into
`[5, 90]` for hue and `[10, 128]` for saturation and value; with exactly
one sample the fixed defaults `(15, 50, 50)` are used; and the two samples
at hue 80 and hue 100 (max circular deviation 10 from their center 90)
yield a hue tolerance of `min(90, max(5, 10 * 1.5 + 5)) = 20`. -/
theorem autoTol_spec :
    (∀ hs ss vs : List ℝ, 1 < hs.length →
      5 ≤ (autoTolerances hs ss vs).1 ∧ (autoTolerances hs ss vs).1 ≤ 90 ∧
      10 ≤ (autoTolerances hs ss vs).2.1 ∧
      (autoTolerances hs ss vs).2.1 ≤ 128 ∧
      10 ≤ (autoTolerances hs ss vs).2.2 ∧
      (autoTolerances hs ss vs).2.2 ≤ 128) ∧
    (∀ hs ss vs : List ℝ, hs.length = 1 →
      autoTolerances hs ss vs = (15, 50, 50)) ∧
    autoHueTol [80, 100] = 20 := by
  refine ⟨?_, ?_, ?_⟩
  · intro hs ss vs hlen
    unfold autoTolerances
    rw [if_pos hlen]
    have c90 : ((90 : ℤ) : ℝ) = (90 : ℝ) := by norm_num
    have c5 : ((5 : ℤ) : ℝ) = (5 : ℝ) := by norm_num
    have c128 : ((128 : ℤ) : ℝ) = (128 : ℝ) := by norm_num
    have c10 : ((10 : ℤ) : ℝ) = (10 : ℝ) := by norm_num
    have hh := pyTruncR_bounds 5 90
      (listMax (hs.map (fun a =>
        min |a - hueCenter hs| (180 - |a - hueCenter hs|))) * 1.5 + 5)
      (by norm_num) (by norm_num)
    rw [c90, c5] at hh
    have hsv1 := pyTruncR_bounds 10 128
      (listMax (ss.map (fun s => |s - listMean ss|)) * 1.5 + 10)
      (by norm_num) (by norm_num)
    rw [c128, c10] at hsv1
    have hsv2 := pyTruncR_bounds 10 128
      (listMax (vs.map (fun s => |s - listMean vs|)) * 1.5 + 10)
      (by norm_num) (by norm_num)
    rw [c128, c10] at hsv2
    exact ⟨hh.1, hh.2, hsv1.1, hsv1.2, hsv2.1, hsv2.2⟩
  · intro hs ss vs hlen
    unfold autoTolerances
    rw [if_neg (by omega)]
  · unfold autoHueTol
    rw [hueCenter_80_100]
    have d1 : min |(80 : ℝ) - 90| (180 - |(80 : ℝ) - 90|) = 10 := by
      rw [show |(80 : ℝ) - 90| = 10 by
        rw [abs_of_nonpos (by norm_num)]; norm_num]
      norm_num
    have d2 : min |(100 : ℝ) - 90| (180 - |(100 : ℝ) - 90|) = 10 := by
      rw [show |(100 : ℝ) - 90| = 10 by
        rw [abs_of_nonneg (by norm_num)]; norm_num]
      norm_num
    simp only [List.map_cons, List.map_nil, d1, d2]
    have hm : listMax [(10 : ℝ), 10] = 10 := by
      unfold listMax
      simp
    rw [hm]
    norm_num [pyTruncR]

/-- Witness for `autoTol_spec` at the two-sample hue list `[80, 100]`. -/
theorem autoTol_spec_witness :
    1 < ([(80 : ℝ), 100] : List ℝ).length ∧
    5 ≤ (autoTolerances [(80 : ℝ), 100] [0, 0] [0, 0]).1 :=
  ⟨by norm_num, (autoTol_spec.1 [80, 100] [0, 0] [0, 0] (by norm_num)).1⟩

end NanoMeasurer
